import Mathlib

/-!
Verification of the bidirectional-mapping core (`bidict/_common.py`,
`bidict/_dup.py`, `bidict/_frozen.py`, `bidict/_marker.py`).

The embedding models Python dictionaries as association lists with
Python-dict semantics (first binding wins on lookup, in-place replacement
on assignment to an existing key, append on fresh insertion).  Python is
untyped, so keys and values are drawn from a single type `α`; the concrete
instances use the `PyVal` universe below.  Generators composed by
`_update` with `atomic=True` are realized eagerly by `tuple(update)`
before any mutation, so the resolution pipeline is modelled as pure
functions returning `Except`; this determinization preserves which inputs
raise and what the successful output is (both resolver stages read only
the frozen pre-call state), it can only reorder which of several pending
errors surfaces first, which no property below depends on.
-/

set_option autoImplicit false
set_option linter.unusedSectionVars false
set_option linter.unusedVariables false

namespace Bidict

/-- Universe of concrete Python objects used by the test instances: strings,
integers, and the singleton marker objects produced by `_make_marker`
(`_marker.py`), which compare unequal to every string and integer. -/
inductive PyVal where
  | str (s : String)
  | int (n : Int)
  | marker (name : String)
deriving DecidableEq, Repr

/-- Duplication behaviors from `_common.py` lines 23-51: the three singletons
RAISE, OVERWRITE, IGNORE, compared by identity. -/
inductive Pol where
  | raiseIt
  | overwrite
  | ignore
deriving DecidableEq, Repr

/-- Exception taxonomy from `_common.py` lines 281-308.  `keyExists` carries
the pair `(k, oldv)` passed to `KeyExistsError`; `valueExists` carries
`(oldk, v)` passed to `ValueExistsError`. -/
inductive BErr (α : Type) where
  | keyNotUnique (k : α)
  | valueNotUnique (v : α)
  | keyExists (k : α) (oldv : α)
  | valueExists (oldk : α) (v : α)
deriving DecidableEq, Repr

/-- Model of a Python dict: an association list, first binding authoritative. -/
abbrev Dict (α : Type) := List (α × α)

variable {α : Type} [DecidableEq α]

/-- Python `d.get(k, _missing)` (and `d[k]` when present): the first binding. -/
def dget : Dict α → α → Option α
  | [], _ => none
  | (k', v') :: t, k => if k' = k then some v' else dget t k

/-- Removal half of Python `d.pop(k, default)`: drop the binding of `k`. -/
def derase : Dict α → α → Dict α
  | [], _ => []
  | (k', v') :: t, k => if k' = k then t else (k', v') :: derase t k

/-- Python `d[k] = v`: replace in place when `k` is bound, else append. -/
def dset : Dict α → α → α → Dict α
  | [], k, v => [(k, v)]
  | (k', v') :: t, k, v => if k' = k then (k, v) :: t else (k', v') :: dset t k v

/-- A dict is well-formed when no key is bound twice (true of every real
Python dict). -/
def NodupKeys (d : Dict α) : Prop := (d.map Prod.fst).Nodup

instance (d : Dict α) : Decidable (NodupKeys d) := by
  unfold NodupKeys; infer_instance

/-- State of one `BidirectionalMapping`: its two synchronized stores
`self._fwd` and `self._inv` (`_common.py` lines 75-76). -/
structure BState (α : Type) where
  fwd : Dict α
  inv : Dict α
deriving DecidableEq, Repr

/-- Body of the write loop of `_update` (`_common.py` lines 117-121) for one
pair: `_inv.pop(_fwd.pop(k, _missing), None)`,
`_fwd.pop(_inv.pop(v, _missing), None)`, `_fwd[k] = v`, `_inv[v] = k`. -/
def applyPair (fwd inv : Dict α) (k v : α) : Dict α × Dict α :=
  let oldv? := dget fwd k
  let fwd1 := derase fwd k
  let inv1 := match oldv? with
    | some oldv => derase inv oldv
    | none => inv
  let oldk? := dget inv1 v
  let inv2 := derase inv1 v
  let fwd2 := match oldk? with
    | some oldk => derase fwd1 oldk
    | none => fwd1
  (dset fwd2 k v, dset inv2 v k)

/-- The whole write loop of `_update` over a realized update sequence. -/
def applyBatch (m : BState α) (l : List (α × α)) : BState α :=
  l.foldl (fun s p => let r := applyPair s.fwd s.inv p.1 p.2; ⟨r.1, r.2⟩) m

/-- Value-side half of one `_dedup` iteration (`_common.py` lines 152-159):
given `oldk = _inv.get(v, _missing)` and the skip flag accumulated by the
key-side check, decide whether the pair is yielded. -/
def valStep (oldk? : Option α) (onV : Pol) (k v : α) (skip : Bool) :
    Except (BErr α) Bool :=
  match oldk? with
  | some oldk =>
    if oldk = k ∨ onV = Pol.ignore then .ok false
    else if onV = Pol.raiseIt then .error (.valueExists oldk v)
    else .ok (!skip)
  | none => .ok (!skip)

/-- One `_dedup` iteration (`_common.py` lines 144-159): key-side check
against `self._fwd`, then value-side check against `self._inv`; returns
whether the pair is yielded. -/
def dedupKeep (fwd inv : Dict α) (onK onV : Pol) (k v : α) :
    Except (BErr α) Bool :=
  match dget fwd k with
  | some oldv =>
    if oldv = v ∨ onK = Pol.ignore then valStep (dget inv v) onV k v true
    else if onK = Pol.raiseIt then .error (.keyExists k oldv)
    else valStep (dget inv v) onV k v false
  | none => valStep (dget inv v) onV k v false

/-- Realization of `BidirectionalMapping._dedup` (`_common.py` lines 123-159) over
a list as `tuple()` does: items of the update deduplicated against the
items already in `self`. -/
def _dedup (fwd inv : Dict α) (onK onV : Pol) :
    List (α × α) → Except (BErr α) (List (α × α))
  | [] => .ok []
  | (k, v) :: rest =>
    match dedupKeep fwd inv onK onV k v with
    | .error e => .error e
    | .ok keep =>
      (_dedup fwd inv onK onV rest).map fun l => if keep then (k, v) :: l else l

/-- Shapes a positional argument to `_update` can take: a generic iterable of
pairs, a `Mapping` (its items in iteration order), or another
`BidirectionalMapping`.  Each of these has `__len__`. -/
inductive Inp (α : Type) where
  | pairsArg (l : List (α × α))
  | mapArg (l : List (α × α))
  | bimapArg (m : BState α)
deriving DecidableEq, Repr

/-- Key-side check of the iterable branch of `_dedup_in` (`_common.py` lines
225-234): `.ok none` models `continue`, `.ok (some argmap')` models falling
through with `argmap[k] = v` executed. -/
def dedupInKey (onK : Pol) (argmap : Dict α) (k v : α) :
    Except (BErr α) (Option (Dict α)) :=
  match dget argmap k with
  | some pv =>
    if pv = v then .ok none
    else if onK = Pol.raiseIt then .error (.keyNotUnique k)
    else if onK = Pol.ignore then .ok none
    else .ok (some (dset argmap k v))
  | none => .ok (some (dset argmap k v))

/-- Value-side check of the positional branch of `_dedup_in` (`_common.py`
lines 235-244): `.ok none` models `continue`, `.ok (some arginv')` models
`arginv[v] = k` followed by `yield`. -/
def dedupInVal (onV : Pol) (arginv : Dict α) (k v : α) :
    Except (BErr α) (Option (Dict α)) :=
  match dget arginv v with
  | some pk =>
    if pk = k then .ok none
    else if onV = Pol.raiseIt then .error (.valueNotUnique v)
    else if onV = Pol.ignore then .ok none
    else .ok (some (dset arginv v k))
  | none => .ok (some (dset arginv v k))

/-- Iterable branch of `_dedup_in` (`_common.py` lines 220-244): builds
`argmap` and `arginv` while yielding surviving pairs. -/
def dedupInPairs (onK onV : Pol) :
    Dict α → Dict α → List (α × α) →
    Except (BErr α) (List (α × α) × Dict α × Dict α)
  | argmap, arginv, [] => .ok ([], argmap, arginv)
  | argmap, arginv, (k, v) :: rest =>
    match dedupInKey onK argmap k v with
    | .error e => .error e
    | .ok none => dedupInPairs onK onV argmap arginv rest
    | .ok (some argmap') =>
      match dedupInVal onV arginv k v with
      | .error e => .error e
      | .ok none => dedupInPairs onK onV argmap' arginv rest
      | .ok (some arginv') =>
        match dedupInPairs onK onV argmap' arginv' rest with
        | .error e => .error e
        | .ok (ys, am, ai) => .ok ((k, v) :: ys, am, ai)

/-- Mapping branch of `_dedup_in` (`_common.py` lines 216-244 with
`argismap` true): key-side checks are skipped, only `arginv` is built. -/
def dedupInMap (onV : Pol) :
    Dict α → List (α × α) → Except (BErr α) (List (α × α) × Dict α)
  | arginv, [] => .ok ([], arginv)
  | arginv, (k, v) :: rest =>
    match dedupInVal onV arginv k v with
    | .error e => .error e
    | .ok none => dedupInMap onV arginv rest
    | .ok (some arginv') =>
      match dedupInMap onV arginv' rest with
      | .error e => .error e
      | .ok (ys, ai) => .ok ((k, v) :: ys, ai)

/-- Checks of one keyword pair against the positional argument
(`_common.py` lines 257-264): `.ok true` falls through to the `kwinv`
check, `.ok false` models `continue`. -/
def kwArgValCheck (onV : Pol) (arginv : Dict α) (k v : α) :
    Except (BErr α) Bool :=
  match dget arginv v with
  | some argk =>
    if argk = k then .ok false
    else if onV = Pol.raiseIt then .error (.valueNotUnique v)
    else if onV = Pol.ignore then .ok false
    else .ok true
  | none => .ok true

/-- Guarded block `if argmap:` of the keyword loop of `_dedup_in`
(`_common.py` lines 248-264); an empty `argmap` models Python's `None`
or empty falsy values, skipping the block. -/
def kwArgCheck (onK onV : Pol) (argmap arginv : Dict α) (k v : α) :
    Except (BErr α) Bool :=
  if argmap = [] then .ok true
  else
    match dget argmap k with
    | some argv =>
      if argv = v then .ok false
      else if onK = Pol.raiseIt then .error (.keyNotUnique k)
      else if onK = Pol.ignore then .ok false
      else kwArgValCheck onV arginv k v
    | none => kwArgValCheck onV arginv k v

/-- Keyword loop of `_dedup_in` (`_common.py` lines 245-274).  The source
stores `kwinv[k] = v` (line 273) while probing `kwinv.get(v, _missing)`
(line 265); the model reproduces that assignment exactly as written. -/
def dedupInKw (onK onV : Pol) (argmap arginv : Dict α) :
    Dict α → List (α × α) → Except (BErr α) (List (α × α))
  | _, [] => .ok []
  | kwinv, (k, v) :: rest =>
    match kwArgCheck onK onV argmap arginv k v with
    | .error e => .error e
    | .ok false => dedupInKw onK onV argmap arginv kwinv rest
    | .ok true =>
      match dget kwinv v with
      | some pk =>
        if pk = k then dedupInKw onK onV argmap arginv kwinv rest
        else if onV = Pol.raiseIt then .error (.valueNotUnique v)
        else if onV = Pol.ignore then dedupInKw onK onV argmap arginv kwinv rest
        else (dedupInKw onK onV argmap arginv (dset kwinv k v) rest).map ((k, v) :: ·)
      | none => (dedupInKw onK onV argmap arginv (dset kwinv k v) rest).map ((k, v) :: ·)

/-- Positional-argument phase of `_dedup_in` (`_common.py` lines 209-244):
returns the yielded pairs together with the `argmap` and `arginv` the
keyword loop will consult.  An absent or empty argument leaves `argmap`
empty, which the keyword loop treats as falsy exactly as the source
treats an unset `argmap`. -/
def dedupInArg (onK onV : Pol) :
    Option (Inp α) → Except (BErr α) (List (α × α) × Dict α × Dict α)
  | none => .ok ([], [], [])
  | some (.pairsArg l) => dedupInPairs onK onV [] [] l
  | some (.mapArg l) => (dedupInMap onV [] l).map fun r => (r.1, l, r.2)
  | some (.bimapArg m) => .ok (m.fwd, m.fwd, m.inv)

/-- Realization of `_dedup_in` (`_common.py` lines 197-274) over lists: the
positional phase followed by the keyword phase. -/
def _dedup_in (onK onV : Pol) (arg? : Option (Inp α)) (kw : List (α × α)) :
    Except (BErr α) (List (α × α)) :=
  match dedupInArg onK onV arg? with
  | .error e => .error e
  | .ok (ys, argmap, arginv) =>
    match dedupInKw onK onV argmap arginv [] kw with
    | .error e => .error e
    | .ok ys2 => .ok (ys ++ ys2)

/-- Modelled from the spec: the `pairs(arg, **kw)` helper lives in
`bidict/util.py`, which is not under `src/`; per section 4.2 it turns the
input into an order-preserving sequence of pairs, the positional
argument's items followed by the keyword items. -/
def inpPairs : Option (Inp α) → List (α × α)
  | none => []
  | some (.pairsArg l) => l
  | some (.mapArg l) => l
  | some (.bimapArg m) => m.fwd

/-- Python `len(arg)` for the argument shapes modelled here (list, dict,
bidirectional mapping), all of which support `__len__`; an absent
argument contributes the length of the default `{}`. -/
def inpLen (arg? : Option (Inp α)) : Nat := (inpPairs arg?).length

/-- Python `isinstance(arg, BidirectionalMapping)`. -/
def isBimap : Option (Inp α) → Bool
  | some (.bimapArg _) => true
  | _ => false

/-- Resolution phase of `_update` (`_common.py` lines 104-114): choose
between `pairs(...)` and `_dedup_in(...)`, then pipe through `_dedup`
when `self` is nonempty; `tuple(update)` realizes the result before the
write loop, so the whole phase reads `m` without modifying it. -/
def resolve (onK onV : Pol) (m : BState α) (arg? : Option (Inp α))
    (kw : List (α × α)) : Except (BErr α) (List (α × α)) :=
  let skipDedupUpdate :=
    (onK = Pol.overwrite ∧ onV = Pol.overwrite) ∨
      inpLen arg? + kw.length = 1 ∨ (isBimap arg? = true ∧ kw = [])
  let update1 : Except (BErr α) (List (α × α)) :=
    if skipDedupUpdate then .ok (inpPairs arg? ++ kw)
    else _dedup_in onK onV arg? kw
  if m.fwd = [] then update1
  else
    match update1 with
    | .error e => .error e
    | .ok l => _dedup m.fwd m.inv onK onV l

/-- Model of `BidirectionalMapping._update` with `atomic=True` (`_common.py` lines
101-121), the mode used by `__init__` and the public update surface: the
realized resolution either raises — strictly before the write loop at
lines 115-121 touches `_fwd`/`_inv`, because `tuple(update)` at line 114
has already forced every check — or is applied by the write loop.  The
result is the state after the call together with the exception, if any. -/
def _update (onK onV : Pol) (m : BState α) (arg? : Option (Inp α))
    (kw : List (α × α)) : BState α × Option (BErr α) :=
  if arg? = none ∧ kw = [] then (m, none)
  else
    match resolve onK onV m arg? kw with
    | .error e => (m, some e)
    | .ok l => (applyBatch m l, none)

/-- Model of `BidirectionalMapping.__init__` (`_common.py` lines 73-83): start from
two empty stores and run `_update` with `atomic=True`; the duplication
behaviors default to `_on_dup_key = OVERWRITE`, `_on_dup_val = RAISE`
(lines 70-71) but are class-configurable, so they are parameters here. -/
def bidictInit (onK onV : Pol) (arg? : Option (Inp α)) (kw : List (α × α)) :
    BState α × Option (BErr α) :=
  _update onK onV ⟨[], []⟩ arg? kw

/-- Modelled from the spec: the public `update(pairs, on_dup_key,
on_dup_val)` operation of the mutable variant lives outside `src/`; per
section 6 it is the batched update of sections 4.1-4.2, delegating to
`_update` with `atomic=True` on an iterable of pairs. -/
def update (m : BState α) (onK onV : Pol) (l : List (α × α)) :
    BState α × Option (BErr α) :=
  _update onK onV m (some (.pairsArg l)) []

/-- Bijection invariant of section 3: both stores are genuine dicts and
each is the converse of the other. -/
def GoodState (m : BState α) : Prop :=
  NodupKeys m.fwd ∧ NodupKeys m.inv ∧
    ∀ k v, dget m.fwd k = some v ↔ dget m.inv v = some k

instance (m : BState PyVal) : Decidable (NodupKeys m.fwd) := by infer_instance

/-- States reachable by construction and updates: the empty state of
`__init__`, and the post-state of any `_update` call (successful or
raising — a raising call keeps the prior state). -/
inductive Reachable : BState α → Prop where
  | empty : Reachable ⟨[], []⟩
  | step (m : BState α) (onK onV : Pol) (arg? : Option (Inp α))
      (kw : List (α × α)) : Reachable m →
      Reachable (_update onK onV m arg? kw).1

/-- Intra-batch uniqueness conditions: the two `*NotUnique` exceptions, which
never carry a stored pair, only the offending key or value. -/
def IsNotUnique : BErr α → Prop
  | .keyNotUnique _ => True
  | .valueNotUnique _ => True
  | .keyExists _ _ => False
  | .valueExists _ _ => False

/-- Shared storage of the two-node cycle built by `__init__` (`_common.py`
lines 75-83): `store0` is the primary instance's `_fwd` and the inverse
view's `_inv`; `store1` the other way around.  Both instances alias these
same two stores for their whole lifetime. -/
structure BPair (α : Type) where
  store0 : Dict α
  store1 : Dict α
deriving DecidableEq, Repr

/-- An object identity in the two-node cycle: `false` is the primary
instance, `true` its inverse view.  Both name the same shared `BPair`. -/
def invHandle (h : Bool) : Bool := !h

/-- The store a given instance uses as `self._fwd`. -/
def fwdStore (p : BPair α) (h : Bool) : Dict α := if h then p.store1 else p.store0

/-- The store a given instance uses as `self._inv`. -/
def invStore (p : BPair α) (h : Bool) : Dict α := if h then p.store0 else p.store1

/-- Contents of one instance of the cycle, as a mapping state. -/
def viewState (p : BPair α) (h : Bool) : BState α := ⟨fwdStore p h, invStore p h⟩

/-- Write a post-update mapping state back into the shared stores through the
instance that performed the update. -/
def writeStores (h : Bool) (s : BState α) : BPair α :=
  if h then ⟨s.inv, s.fwd⟩ else ⟨s.fwd, s.inv⟩

/-- A batched update performed through one instance of the cycle, mutating
the shared stores in place. -/
def updateVia (p : BPair α) (h : Bool) (onK onV : Pol) (l : List (α × α)) :
    BPair α × Option (BErr α) :=
  let r := update (viewState p h) onK onV l
  (writeStores h r.1, r.2)

/-- Model of `BidirectionalMapping.copy` (`_common.py` lines 161-171): fresh copies of
both stores, with a freshly linked inverse view; the returned handle is the
new primary instance. -/
def copyPair (p : BPair α) (h : Bool) : BPair α × Bool :=
  (⟨fwdStore p h, invStore p h⟩, false)

/-- Numeric stand-in for CPython's per-object hash of the concrete values
used here; the properties proved below depend only on it being a
function of the object. -/
def strCode (s : String) : Nat := s.data.foldl (fun a c => Nat.pair a c.toNat) 0

/-- Numeric stand-in for `hash(x)` on the `PyVal` universe. -/
def pyCode : PyVal → Nat
  | .str s => Nat.pair 0 (strCode s)
  | .int n => Nat.pair 1 (2 * n.natAbs + if n < 0 then 1 else 0)
  | .marker s => Nat.pair 2 (strCode s)

/-- Stand-in for the hash of one item (a 2-tuple). -/
def itemCode (p : PyVal × PyVal) : Nat := Nat.pair (pyCode p.1) (pyCode p.2)

/-- Modelled from the spec: `hash(frozenset(items))` (`_frozen.py` line 82)
uses CPython's frozenset hash, which is not repository code; per section
4.4 it combines the items with a commutative, associative, duplicate-
insensitive set-style hash, so it is a function of the set of items —
modelled as the sum of the item codes over the distinct items. -/
def frozensetHash (items : List (PyVal × PyVal)) : Nat :=
  items.toFinset.sum itemCode

/-- Model of `frozenbidict._compute_hash` (`_frozen.py` lines 67-82): the hash of an
ephemeral frozenset of the items. -/
def _compute_hash (items : List (PyVal × PyVal)) : Nat := frozensetHash items

/-- Model of `FrozenBidictBase.__hash__` (`_frozen.py` lines 39-61) for the unordered
`frozenbidict` with the default `_HASH_NITEMS_MAX = None`: a marker item
derived from the class name is prepended to all items of the forward
store, and the result is handed to `_compute_hash`. -/
def frozenHash (className : String) (m : BState PyVal) : Nat :=
  _compute_hash ((PyVal.marker className, PyVal.marker className) :: m.fwd)

/-! Basic facts about the dict model. -/

theorem dget_dset_self (d : Dict α) (k v : α) : dget (dset d k v) k = some v := by
  induction d with
  | nil => simp [dset, dget]
  | cons hd t ih =>
    obtain ⟨k', v'⟩ := hd
    by_cases hk : k' = k
    · subst hk; simp [dset, dget]
    · simp [dset, dget, hk, ih]

theorem dget_dset_ne (d : Dict α) {k x : α} (v : α) (h : k ≠ x) :
    dget (dset d k v) x = dget d x := by
  induction d with
  | nil => simp [dset, dget, h]
  | cons hd t ih =>
    obtain ⟨k', v'⟩ := hd
    by_cases hk : k' = k
    · subst hk; simp [dset, dget, h, ih]
    · simp only [dset, if_neg hk, dget]
      by_cases hx : k' = x
      · simp [hx]
      · simp [hx, ih]

theorem dget_derase_ne (d : Dict α) {k x : α} (h : k ≠ x) :
    dget (derase d k) x = dget d x := by
  induction d with
  | nil => simp [derase]
  | cons hd t ih =>
    obtain ⟨k', v'⟩ := hd
    by_cases hk : k' = k
    · subst hk; simp [derase, dget, h, Ne.symm h]
    · simp only [derase, if_neg hk, dget]
      by_cases hx : k' = x
      · simp [hx]
      · simp [hx, ih]

theorem derase_sublist (d : Dict α) (k : α) : List.Sublist (derase d k) d := by
  induction d with
  | nil => simp [derase]
  | cons hd t ih =>
    obtain ⟨k', v'⟩ := hd
    by_cases hk : k' = k
    · simp only [derase, if_pos hk]
      exact (List.sublist_cons_self _ _)
    · simp only [derase, if_neg hk]
      exact ih.cons₂ _

theorem mem_fst_of_dget {d : Dict α} {k v : α} (h : dget d k = some v) :
    k ∈ d.map Prod.fst := by
  induction d with
  | nil => simp [dget] at h
  | cons hd t ih =>
    obtain ⟨k', v'⟩ := hd
    by_cases hk : k' = k
    · subst hk; simp
    · simp only [dget, if_neg hk] at h
      simpa using Or.inr (ih h)

theorem dget_eq_none_of_not_mem {d : Dict α} {k : α} (h : k ∉ d.map Prod.fst) :
    dget d k = none := by
  induction d with
  | nil => simp [dget]
  | cons hd t ih =>
    obtain ⟨k', v'⟩ := hd
    simp only [List.map_cons, List.mem_cons] at h
    push_neg at h
    simp [dget, Ne.symm h.1, ih h.2]

theorem map_fst_derase (d : Dict α) (k : α) :
    (derase d k).map Prod.fst = (d.map Prod.fst).erase k := by
  induction d with
  | nil => simp [derase]
  | cons hd t ih =>
    obtain ⟨k', v'⟩ := hd
    by_cases hk : k' = k
    · subst hk; simp [derase, List.erase_cons_head]
    · simp [derase, hk, List.erase_cons_tail, ih]

theorem nodupKeys_derase {d : Dict α} (k : α) (h : NodupKeys d) :
    NodupKeys (derase d k) := by
  unfold NodupKeys at h ⊢
  rw [map_fst_derase]
  exact h.erase k

theorem dget_derase_self {d : Dict α} (k : α) (h : NodupKeys d) :
    dget (derase d k) k = none := by
  apply dget_eq_none_of_not_mem
  rw [map_fst_derase]
  exact (h.mem_erase_iff).not.mpr (by simp)

theorem map_fst_dset (d : Dict α) (k v : α) :
    (dset d k v).map Prod.fst =
      if k ∈ d.map Prod.fst then d.map Prod.fst else d.map Prod.fst ++ [k] := by
  induction d with
  | nil => simp [dset]
  | cons hd t ih =>
    obtain ⟨k', v'⟩ := hd
    by_cases hk : k' = k
    · subst hk; simp [dset]
    · simp only [dset, if_neg hk, List.map_cons, List.mem_cons]
      rw [ih]
      by_cases hm : k ∈ t.map Prod.fst
      · simp [hm, Ne.symm hk]
      · simp [hm, Ne.symm hk]

theorem nodupKeys_dset {d : Dict α} (k v : α) (h : NodupKeys d) :
    NodupKeys (dset d k v) := by
  unfold NodupKeys at h ⊢
  rw [map_fst_dset]
  by_cases hm : k ∈ d.map Prod.fst
  · simpa [hm] using h
  · simp only [hm, if_false]
    simpa [List.nodup_append, hm] using h

theorem nodup_of_nodupKeys {d : Dict α} (h : NodupKeys d) : d.Nodup :=
  h.of_map Prod.fst

theorem mem_of_dget {d : Dict α} {k v : α} (h : dget d k = some v) : (k, v) ∈ d := by
  induction d with
  | nil => simp [dget] at h
  | cons hd t ih =>
    obtain ⟨k', v'⟩ := hd
    by_cases hk : k' = k
    · subst hk
      rw [dget, if_pos rfl] at h
      injection h with h
      subst h
      simp
    · simp only [dget, if_neg hk] at h
      exact List.mem_cons_of_mem _ (ih h)

theorem dget_of_mem {d : Dict α} {k v : α} (hd : NodupKeys d) (h : (k, v) ∈ d) :
    dget d k = some v := by
  induction d with
  | nil => simp at h
  | cons hd' t ih =>
    obtain ⟨k', v'⟩ := hd'
    unfold NodupKeys at hd
    simp only [List.map_cons, List.nodup_cons] at hd
    rcases List.mem_cons.mp h with h1 | h1
    · obtain ⟨rfl, rfl⟩ := Prod.mk.injEq .. ▸ (Prod.ext_iff.mp h1)
      simp [dget]
    · by_cases hk : k' = k
      · subst hk
        exact absurd (List.mem_map_of_mem Prod.fst h1) hd.1
      · simpa [dget, hk] using ih hd.2 h1

theorem dget_nonempty {d : Dict α} {k v : α} (h : dget d k = some v) : d ≠ [] := by
  intro hnil; subst hnil; simp [dget] at h

/-! Pointwise description of one iteration of the write loop, under the
bijection invariant, and preservation of the invariant. -/

theorem dget_applyPair_fst (f i : Dict α) (k v : α)
    (hf : NodupKeys f) (hi : NodupKeys i)
    (hiff : ∀ a b, dget f a = some b ↔ dget i b = some a) (x : α) :
    dget (applyPair f i k v).1 x =
      if x = k then some v else if dget f x = some v then none else dget f x := by
  have huniq : ∀ a b a', dget f a = some b → dget f a' = some b → a = a' := by
    intro a b a' h1 h2
    have e1 := (hiff a b).mp h1
    have e2 := (hiff a' b).mp h2
    rw [e1] at e2
    exact Option.some.inj e2
  cases hov : dget f k with
  | none =>
    simp only [applyPair, hov]
    cases hok : dget i v with
    | none =>
      simp only [hok]
      by_cases hx : x = k
      · subst hx; simp [dget_dset_self]
      · rw [dget_dset_ne _ _ (Ne.symm hx), dget_derase_ne _ (Ne.symm hx)]
        have hne : dget f x ≠ some v := by
          intro hc; rw [(hiff x v).mp hc] at hok; cases hok
        simp [hx, hne]
    | some oldk =>
      have hfoldk : dget f oldk = some v := (hiff oldk v).mpr hok
      simp only [hok]
      by_cases hx : x = k
      · subst hx; simp [dget_dset_self]
      · rw [dget_dset_ne _ _ (Ne.symm hx)]
        by_cases hxo : x = oldk
        · subst hxo
          rw [dget_derase_self _ (nodupKeys_derase _ hf)]
          simp [hx, hfoldk]
        · rw [dget_derase_ne _ (Ne.symm hxo), dget_derase_ne _ (Ne.symm hx)]
          have hne : dget f x ≠ some v := fun hc => hxo (huniq x v oldk hc hfoldk)
          simp [hx, hne]
  | some oldv =>
    simp only [applyPair, hov]
    by_cases hv : oldv = v
    · subst hv
      have h0 : dget (derase i oldv) oldv = none := dget_derase_self _ hi
      simp only [h0]
      by_cases hx : x = k
      · subst hx; simp [dget_dset_self]
      · rw [dget_dset_ne _ _ (Ne.symm hx), dget_derase_ne _ (Ne.symm hx)]
        have hne : dget f x ≠ some oldv := fun hc => hx (huniq x oldv k hc hov)
        simp [hx, hne]
    · have h1 : dget (derase i oldv) v = dget i v := dget_derase_ne _ hv
      cases hok : dget i v with
      | none =>
        simp only [h1, hok]
        by_cases hx : x = k
        · subst hx; simp [dget_dset_self]
        · rw [dget_dset_ne _ _ (Ne.symm hx), dget_derase_ne _ (Ne.symm hx)]
          have hne : dget f x ≠ some v := by
            intro hc; rw [(hiff x v).mp hc] at hok; cases hok
          simp [hx, hne]
      | some oldk =>
        have hfoldk : dget f oldk = some v := (hiff oldk v).mpr hok
        simp only [h1, hok]
        by_cases hx : x = k
        · subst hx; simp [dget_dset_self]
        · rw [dget_dset_ne _ _ (Ne.symm hx)]
          by_cases hxo : x = oldk
          · subst hxo
            rw [dget_derase_self _ (nodupKeys_derase _ hf)]
            simp [hx, hfoldk]
          · rw [dget_derase_ne _ (Ne.symm hxo), dget_derase_ne _ (Ne.symm hx)]
            have hne : dget f x ≠ some v := fun hc => hxo (huniq x v oldk hc hfoldk)
            simp [hx, hne]

theorem dget_applyPair_snd (f i : Dict α) (k v : α)
    (hf : NodupKeys f) (hi : NodupKeys i)
    (hiff : ∀ a b, dget f a = some b ↔ dget i b = some a) (y : α) :
    dget (applyPair f i k v).2 y =
      if y = v then some k else if dget i y = some k then none else dget i y := by
  cases hov : dget f k with
  | none =>
    simp only [applyPair, hov]
    by_cases hy : y = v
    · subst hy; simp [dget_dset_self]
    · rw [dget_dset_ne _ _ (Ne.symm hy), dget_derase_ne _ (Ne.symm hy)]
      have hne : dget i y ≠ some k := by
        intro hc; rw [(hiff k y).mpr hc] at hov; cases hov
      simp [hy, hne]
  | some oldv =>
    have hioldv : dget i oldv = some k := (hiff k oldv).mp hov
    simp only [applyPair, hov]
    by_cases hy : y = v
    · subst hy; simp [dget_dset_self]
    · rw [dget_dset_ne _ _ (Ne.symm hy), dget_derase_ne _ (Ne.symm hy)]
      by_cases hyo : y = oldv
      · subst hyo
        rw [dget_derase_self _ hi]
        simp [hy, hioldv]
      · rw [dget_derase_ne _ (Ne.symm hyo)]
        have hne : dget i y ≠ some k := by
          intro hc
          have h2 := (hiff k y).mpr hc
          rw [hov] at h2
          exact hyo (Option.some.inj h2.symm)
        simp [hy, hne]

theorem nodupKeys_applyPair_fst (f i : Dict α) (k v : α) (hf : NodupKeys f) :
    NodupKeys (applyPair f i k v).1 := by
  cases hov : dget f k with
  | none =>
    simp only [applyPair, hov]
    cases hok : dget i v with
    | none =>
      simp only [hok]
      exact nodupKeys_dset _ _ (nodupKeys_derase _ hf)
    | some oldk =>
      simp only [hok]
      exact nodupKeys_dset _ _ (nodupKeys_derase _ (nodupKeys_derase _ hf))
  | some oldv =>
    simp only [applyPair, hov]
    cases hok : dget (derase i oldv) v with
    | none =>
      simp only [hok]
      exact nodupKeys_dset _ _ (nodupKeys_derase _ hf)
    | some oldk =>
      simp only [hok]
      exact nodupKeys_dset _ _ (nodupKeys_derase _ (nodupKeys_derase _ hf))

theorem nodupKeys_applyPair_snd (f i : Dict α) (k v : α) (hi : NodupKeys i) :
    NodupKeys (applyPair f i k v).2 := by
  cases hov : dget f k with
  | none =>
    simp only [applyPair, hov]
    exact nodupKeys_dset _ _ (nodupKeys_derase _ hi)
  | some oldv =>
    simp only [applyPair, hov]
    exact nodupKeys_dset _ _ (nodupKeys_derase _ (nodupKeys_derase _ hi))

theorem goodState_applyPair (f i : Dict α) (k v : α) (h : GoodState ⟨f, i⟩) :
    GoodState ⟨(applyPair f i k v).1, (applyPair f i k v).2⟩ := by
  obtain ⟨hf, hi, hiff⟩ := h
  refine ⟨nodupKeys_applyPair_fst f i k v hf, nodupKeys_applyPair_snd f i k v hi, ?_⟩
  intro x y
  rw [dget_applyPair_fst f i k v hf hi hiff x, dget_applyPair_snd f i k v hf hi hiff y]
  by_cases hx : x = k <;> by_cases hy : y = v
  · simp [hx, hy]
  · simp only [if_pos hx, if_neg hy]
    constructor
    · intro hc
      injection hc with hc
      exact absurd hc.symm hy
    · intro hc
      split_ifs at hc with hik
      rw [hx] at hc
      exact absurd hc hik
  · simp only [if_neg hx, if_pos hy]
    constructor
    · intro hc
      split_ifs at hc with hfx
      rw [hy] at hc
      exact absurd hc hfx
    · intro hc
      injection hc with hc
      exact absurd hc.symm hx
  · simp only [if_neg hx, if_neg hy]
    by_cases hfx : dget f x = some v
    · simp only [if_pos hfx]
      constructor
      · intro hc
        exact Option.noConfusion hc
      · intro hc
        split_ifs at hc with hik
        have h2 := (hiff x y).mpr hc
        rw [hfx] at h2
        injection h2 with h2
        exact absurd h2.symm hy
    · simp only [if_neg hfx]
      by_cases hik : dget i y = some k
      · simp only [if_pos hik]
        constructor
        · intro hc
          have h2 := (hiff x y).mp hc
          rw [hik] at h2
          injection h2 with h2
          exact absurd h2.symm hx
        · intro hc
          exact Option.noConfusion hc
      · simp only [if_neg hik]
        exact hiff x y

theorem goodState_applyBatch (m : BState α) (l : List (α × α)) (h : GoodState m) :
    GoodState (applyBatch m l) := by
  induction l generalizing m with
  | nil => simpa [applyBatch] using h
  | cons p rest ih =>
    obtain ⟨k, v⟩ := p
    have h1 := goodState_applyPair m.fwd m.inv k v h
    simpa [applyBatch] using ih _ h1

theorem goodState_update (onK onV : Pol) (m : BState α) (arg? : Option (Inp α))
    (kw : List (α × α)) (h : GoodState m) :
    GoodState (_update onK onV m arg? kw).1 := by
  unfold _update
  split
  · exact h
  · cases hres : resolve onK onV m arg? kw with
    | error e => simpa using h
    | ok l => simpa using goodState_applyBatch m l h

theorem goodState_empty : GoodState (⟨[], []⟩ : BState α) := by
  refine ⟨by simp [NodupKeys], by simp [NodupKeys], ?_⟩
  intro k v
  simp [dget]

theorem goodState_reachable (m : BState α) (h : Reachable m) : GoodState m := by
  induction h with
  | empty => exact goodState_empty
  | step m onK onV arg? kw _ ih => exact goodState_update onK onV m arg? kw ih

theorem good_length (m : BState α) (h : GoodState m) :
    m.fwd.length = m.inv.length := by
  obtain ⟨hf, hi, hiff⟩ := h
  have himg : m.inv.toFinset = m.fwd.toFinset.image Prod.swap := by
    ext p
    obtain ⟨v, k⟩ := p
    simp only [List.mem_toFinset, Finset.mem_image]
    constructor
    · intro hm
      have h1 : dget m.inv v = some k := dget_of_mem hi hm
      have h2 : dget m.fwd k = some v := (hiff k v).mpr h1
      exact ⟨(k, v), mem_of_dget h2, rfl⟩
    · rintro ⟨⟨k', v'⟩, hmem, hsw⟩
      have hv : v' = v := congrArg Prod.fst hsw
      have hk : k' = k := congrArg Prod.snd hsw
      subst hv; subst hk
      have h1 : dget m.fwd k' = some v' := dget_of_mem hf hmem
      exact mem_of_dget ((hiff k' v').mp h1)
  have c1 := List.toFinset_card_of_nodup (nodup_of_nodupKeys hf)
  have c2 := List.toFinset_card_of_nodup (nodup_of_nodupKeys hi)
  rw [← c1, ← c2, himg, Finset.card_image_of_injective _ Prod.swap_injective]

/-! Classification of the errors each resolver stage can produce: the
intra-batch stage (`_dedup_in`) only ever raises the `NotUnique` kinds. -/

theorem dedupInKey_error {onK : Pol} {argmap : Dict α} {k v : α} {e : BErr α}
    (h : dedupInKey onK argmap k v = .error e) : IsNotUnique e := by
  unfold dedupInKey at h
  split at h
  · split_ifs at h
    injection h with h
    subst h
    exact trivial
  · simp at h

theorem dedupInVal_error {onV : Pol} {arginv : Dict α} {k v : α} {e : BErr α}
    (h : dedupInVal onV arginv k v = .error e) : IsNotUnique e := by
  unfold dedupInVal at h
  split at h
  · split_ifs at h
    injection h with h
    subst h
    exact trivial
  · simp at h

theorem kwArgValCheck_error {onV : Pol} {arginv : Dict α} {k v : α} {e : BErr α}
    (h : kwArgValCheck onV arginv k v = .error e) : IsNotUnique e := by
  unfold kwArgValCheck at h
  split at h
  · split_ifs at h
    injection h with h
    subst h
    exact trivial
  · simp at h

theorem kwArgCheck_error {onK onV : Pol} {argmap arginv : Dict α} {k v : α}
    {e : BErr α} (h : kwArgCheck onK onV argmap arginv k v = .error e) :
    IsNotUnique e := by
  unfold kwArgCheck at h
  split at h
  · simp at h
  · split at h
    · split_ifs at h
      · injection h with h
        subst h
        exact trivial
      · exact kwArgValCheck_error h
    · exact kwArgValCheck_error h

theorem dedupInPairs_error {onK onV : Pol} {e : BErr α} {l : List (α × α)} :
    ∀ {argmap arginv : Dict α},
      dedupInPairs onK onV argmap arginv l = .error e → IsNotUnique e := by
  induction l with
  | nil =>
    intro argmap arginv h
    simp [dedupInPairs] at h
  | cons p rest ih =>
    obtain ⟨k, v⟩ := p
    intro argmap arginv h
    unfold dedupInPairs at h
    split at h
    · injection h with h
      subst h
      exact dedupInKey_error (by assumption)
    · exact ih h
    · split at h
      · injection h with h
        subst h
        exact dedupInVal_error (by assumption)
      · exact ih h
      · split at h
        · injection h with h
          subst h
          exact ih (by assumption)
        · simp at h

theorem dedupInMap_error {onV : Pol} {e : BErr α} {l : List (α × α)} :
    ∀ {arginv : Dict α}, dedupInMap onV arginv l = .error e → IsNotUnique e := by
  induction l with
  | nil =>
    intro arginv h
    simp [dedupInMap] at h
  | cons p rest ih =>
    obtain ⟨k, v⟩ := p
    intro arginv h
    unfold dedupInMap at h
    split at h
    · injection h with h
      subst h
      exact dedupInVal_error (by assumption)
    · exact ih h
    · split at h
      · injection h with h
        subst h
        exact ih (by assumption)
      · simp at h

theorem dedupInKw_error {onK onV : Pol} {argmap arginv : Dict α} {e : BErr α}
    {l : List (α × α)} :
    ∀ {kwinv : Dict α},
      dedupInKw onK onV argmap arginv kwinv l = .error e → IsNotUnique e := by
  induction l with
  | nil =>
    intro kwinv h
    simp [dedupInKw] at h
  | cons p rest ih =>
    obtain ⟨k, v⟩ := p
    intro kwinv h
    unfold dedupInKw at h
    split at h
    · injection h with h
      subst h
      exact kwArgCheck_error (by assumption)
    · exact ih h
    · split at h
      · split_ifs at h
        · exact ih h
        · injection h with h
          subst h
          exact trivial
        · exact ih h
        · cases hr : dedupInKw onK onV argmap arginv (dset kwinv k v) rest with
          | error e' =>
            rw [hr] at h
            injection h with h
            subst h
            exact ih hr
          | ok ys =>
            rw [hr] at h
            simp [Except.map] at h
      · cases hr : dedupInKw onK onV argmap arginv (dset kwinv k v) rest with
        | error e' =>
          rw [hr] at h
          injection h with h
          subst h
          exact ih hr
        | ok ys =>
          rw [hr] at h
          simp [Except.map] at h

theorem dedupInArg_error {onK onV : Pol} {arg? : Option (Inp α)} {e : BErr α}
    (h : dedupInArg onK onV arg? = .error e) : IsNotUnique e := by
  unfold dedupInArg at h
  split at h
  · simp at h
  · exact dedupInPairs_error h
  · next l =>
    cases hr : dedupInMap onV [] l with
    | error e' =>
      rw [hr] at h
      simp only [Except.map] at h
      injection h with h
      subst h
      exact dedupInMap_error hr
    | ok r =>
      rw [hr] at h
      simp [Except.map] at h
  · simp at h

theorem dedupIn_error {onK onV : Pol} {arg? : Option (Inp α)} {kw : List (α × α)}
    {e : BErr α} (h : _dedup_in onK onV arg? kw = .error e) : IsNotUnique e := by
  unfold _dedup_in at h
  split at h
  · injection h with h
    subst h
    exact dedupInArg_error (by assumption)
  · split at h
    · injection h with h
      subst h
      exact dedupInKw_error (by assumption)
    · simp at h

/-! Evaluation lemmas for the update pipeline, used by the claims below. -/

theorem update_def (m : BState α) (onK onV : Pol) (l : List (α × α)) :
    update m onK onV l =
      match resolve onK onV m (some (.pairsArg l)) [] with
      | .error e => (m, some e)
      | .ok r => (applyBatch m r, none) := by
  unfold update _update
  simp

theorem resolve_single_pair (onK onV : Pol) (m : BState α) (k v : α)
    (hfne : m.fwd ≠ []) :
    resolve onK onV m (some (.pairsArg [(k, v)])) [] =
      _dedup m.fwd m.inv onK onV [(k, v)] := by
  simp [resolve, inpLen, inpPairs, hfne]

theorem dedupKeep_value_collision (m : BState α) (k v k0 : α) (onK : Pol)
    (hinv : dget m.inv v = some k0) (hk0 : k0 ≠ k)
    (hfwd : dget m.fwd k ≠ some v)
    (hkey : dget m.fwd k = none ∨ onK ≠ Pol.raiseIt) :
    dedupKeep m.fwd m.inv onK Pol.raiseIt k v = .error (.valueExists k0 v) := by
  have hval : ∀ sk, valStep (dget m.inv v) Pol.raiseIt k v sk
      = .error (.valueExists k0 v) := by
    intro sk
    unfold valStep
    rw [hinv]
    simp [hk0]
  unfold dedupKeep
  split
  · next oldv hg =>
    have hov : ¬oldv = v := fun hh => hfwd (hh ▸ hg)
    rcases hkey with hnone | hnraise
    · rw [hnone] at hg
      exact Option.noConfusion hg
    · by_cases hig : onK = Pol.ignore
      · rw [if_pos (Or.inr hig)]
        exact hval true
      · rw [if_neg (by simp [hov, hig]), if_neg hnraise]
        exact hval false
  · next hg => exact hval false

theorem dedupKeep_exact (m : BState α) (k v : α) (onK onV : Pol)
    (hk : dget m.fwd k = some v) (hinv : dget m.inv v = some k) :
    dedupKeep m.fwd m.inv onK onV k v = .ok false := by
  unfold dedupKeep
  split
  · next oldv hg =>
    rw [hk] at hg
    injection hg with hg
    subst hg
    rw [if_pos (Or.inl rfl)]
    unfold valStep
    rw [hinv]
    simp
  · next hg =>
    rw [hk] at hg
    exact Option.noConfusion hg

theorem _dedup_cons (fwd inv : Dict α) (onK onV : Pol) (k v : α)
    (rest : List (α × α)) :
    _dedup fwd inv onK onV ((k, v) :: rest) =
      match dedupKeep fwd inv onK onV k v with
      | .error e => .error e
      | .ok keep =>
        (_dedup fwd inv onK onV rest).map fun l => if keep then (k, v) :: l else l :=
  rfl

theorem _dedup_drop_exact (m : BState α) (k v : α) (onK onV : Pol)
    (hk : dget m.fwd k = some v) (hinv : dget m.inv v = some k)
    (rest : List (α × α)) :
    _dedup m.fwd m.inv onK onV ((k, v) :: rest)
      = _dedup m.fwd m.inv onK onV rest := by
  rw [_dedup_cons, dedupKeep_exact m k v onK onV hk hinv]
  cases hr : _dedup m.fwd m.inv onK onV rest with
  | error e => rfl
  | ok l => simp [Except.map]

theorem toFinset_eq_of_dget_eq {d1 d2 : Dict α} (h1 : NodupKeys d1)
    (h2 : NodupKeys d2) (heq : ∀ k, dget d1 k = dget d2 k) :
    d1.toFinset = d2.toFinset := by
  ext p
  obtain ⟨k, v⟩ := p
  simp only [List.mem_toFinset]
  constructor
  · intro hm
    exact mem_of_dget ((heq k) ▸ dget_of_mem h1 hm)
  · intro hm
    exact mem_of_dget ((heq k).symm ▸ dget_of_mem h2 hm)

/-! The claims. -/

/-- C1: every mapping state reachable by construction and updates keeps the
two indices a bijection: equal lengths, each index the converse of the
other (so `inverse[forward[k]] == k` and `forward[inverse[v]] == v`), and
no key or value bound twice in either index — after every operation,
including an update pair that displaces two different pre-existing entries
at once. -/
theorem C1_bijection_invariant (m : BState α) (h : Reachable m) :
    m.fwd.length = m.inv.length ∧
    (∀ k v, dget m.fwd k = some v ↔ dget m.inv v = some k) ∧
    NodupKeys m.fwd ∧ NodupKeys m.inv := by
  have hg := goodState_reachable m h
  exact ⟨good_length m hg, hg.2.2, hg.1, hg.2.1⟩

/-- Witness for C1 at a concrete two-step history: build {'a': 1, 'b': 2},
then apply ('a', 2) with both policies OVERWRITE — the update pair that
displaces two different pre-existing entries at once. -/
theorem C1_bijection_invariant_witness :
    ((_update Pol.overwrite Pol.overwrite
        (_update Pol.overwrite Pol.raiseIt (⟨[], []⟩ : BState PyVal)
          (some (.pairsArg [(PyVal.str "a", PyVal.int 1), (PyVal.str "b", PyVal.int 2)])) []).1
        (some (.pairsArg [(PyVal.str "a", PyVal.int 2)])) []).1).fwd.length =
      ((_update Pol.overwrite Pol.overwrite
        (_update Pol.overwrite Pol.raiseIt (⟨[], []⟩ : BState PyVal)
          (some (.pairsArg [(PyVal.str "a", PyVal.int 1), (PyVal.str "b", PyVal.int 2)])) []).1
        (some (.pairsArg [(PyVal.str "a", PyVal.int 2)])) []).1).inv.length :=
  (C1_bijection_invariant _
    (Reachable.step _ Pol.overwrite Pol.overwrite _ _
      (Reachable.step _ Pol.overwrite Pol.raiseIt _ _ Reachable.empty))).1

/-- C2: whenever construction or update raises a uniqueness error, the
mapping's indices are exactly as they were before the call — no pair of
the batch, not even pairs preceding the offending one, has been applied.
The resolution phase reads the state without writing it and is fully
realized before the write loop runs. -/
theorem C2_atomic_on_error (onK onV : Pol) (m : BState α) (arg? : Option (Inp α))
    (kw : List (α × α)) (e : BErr α)
    (h : (_update onK onV m arg? kw).2 = some e) :
    (_update onK onV m arg? kw).1 = m := by
  unfold _update at h ⊢
  by_cases hc : arg? = none ∧ kw = []
  · rw [if_pos hc]
  · rw [if_neg hc] at h ⊢
    cases hres : resolve onK onV m arg? kw with
    | error e' => rfl
    | ok l =>
      rw [hres] at h
      exact Option.noConfusion h

/-- Witness for C2: on {'a': 1}, the batch [('b',2), ('c',3), ('d',1)] fails
at its third pair (value 1 already stored under 'a'); the two pairs
preceding the offending one are not applied either. -/
theorem C2_atomic_on_error_witness :
    (_update Pol.overwrite Pol.raiseIt
        (⟨[(PyVal.str "a", PyVal.int 1)], [(PyVal.int 1, PyVal.str "a")]⟩ : BState PyVal)
        (some (.pairsArg [(PyVal.str "b", PyVal.int 2), (PyVal.str "c", PyVal.int 3),
          (PyVal.str "d", PyVal.int 1)])) []).1 =
      ⟨[(PyVal.str "a", PyVal.int 1)], [(PyVal.int 1, PyVal.str "a")]⟩ :=
  C2_atomic_on_error Pol.overwrite Pol.raiseIt _ _ []
    (BErr.valueExists (PyVal.str "a") (PyVal.int 1)) (by decide)

/-- C3 counterexample: at m = {'a':1, 'b':2} with update pair ('a', 2) —
where inverse[2] = 'b' ≠ 'a' and forward['a'] = 1 ≠ 2, so the claim's
hypotheses hold — choosing on_dup_key = RAISE makes the code raise
KeyExists('a', 1), not ValueExists('b', 2): the claim's "regardless of
on_dup_key" is false. -/
theorem C3_regardless_counterexample :
    (update (⟨[(PyVal.str "a", PyVal.int 1), (PyVal.str "b", PyVal.int 2)],
        [(PyVal.int 1, PyVal.str "a"), (PyVal.int 2, PyVal.str "b")]⟩ : BState PyVal)
        Pol.raiseIt Pol.raiseIt [(PyVal.str "a", PyVal.int 2)]).2 =
      some (BErr.keyExists (PyVal.str "a") (PyVal.int 1)) ∧
    (update (⟨[(PyVal.str "a", PyVal.int 1), (PyVal.str "b", PyVal.int 2)],
        [(PyVal.int 1, PyVal.str "a"), (PyVal.int 2, PyVal.str "b")]⟩ : BState PyVal)
        Pol.raiseIt Pol.raiseIt [(PyVal.str "a", PyVal.int 2)]).2 ≠
      some (BErr.valueExists (PyVal.str "b") (PyVal.int 2)) := by
  decide

/-- C3 (amended): for a non-empty mapping and single-pair update (k, v) with
v stored under k0 ≠ k and k absent or bound to a value other than v,
on_dup_val = RAISE raises ValueExists carrying (k0, v) and leaves the
mapping unchanged — for every on_dup_key when k is absent, and for
on_dup_key OVERWRITE or IGNORE when k is bound (on_dup_key = RAISE
instead raises KeyExists first). -/
theorem C3_value_raise (m : BState α) (k v k0 : α) (onK : Pol)
    (hfne : m.fwd ≠ [])
    (hinv : dget m.inv v = some k0) (hk0 : k0 ≠ k)
    (hfwd : dget m.fwd k ≠ some v)
    (hkey : dget m.fwd k = none ∨ onK ≠ Pol.raiseIt) :
    update m onK Pol.raiseIt [(k, v)] = (m, some (BErr.valueExists k0 v)) := by
  rw [update_def, resolve_single_pair onK Pol.raiseIt m k v hfne]
  rw [_dedup_cons, dedupKeep_value_collision m k v k0 onK hinv hk0 hfwd hkey]

/-- Witness for C3 (amended), the spec's own example: m = {'a':1, 'b':2},
update [('a', 2)] with the defaults (key OVERWRITE, value RAISE) raises
ValueExists('b', 2); m unchanged. -/
theorem C3_value_raise_witness :
    update (⟨[(PyVal.str "a", PyVal.int 1), (PyVal.str "b", PyVal.int 2)],
        [(PyVal.int 1, PyVal.str "a"), (PyVal.int 2, PyVal.str "b")]⟩ : BState PyVal)
        Pol.overwrite Pol.raiseIt [(PyVal.str "a", PyVal.int 2)] =
      (⟨[(PyVal.str "a", PyVal.int 1), (PyVal.str "b", PyVal.int 2)],
        [(PyVal.int 1, PyVal.str "a"), (PyVal.int 2, PyVal.str "b")]⟩,
       some (BErr.valueExists (PyVal.str "b") (PyVal.int 2))) :=
  C3_value_raise
    (⟨[(PyVal.str "a", PyVal.int 1), (PyVal.str "b", PyVal.int 2)],
      [(PyVal.int 1, PyVal.str "a"), (PyVal.int 2, PyVal.str "b")]⟩ : BState PyVal)
    (PyVal.str "a") (PyVal.int 2) (PyVal.str "b") Pol.overwrite
    (by decide) (by decide) (by decide) (by decide) (by decide)

/-- C4: on m = {'a':1, 'b':2}, the single-pair update ('a', 2) with both
policies OVERWRITE succeeds, removing the old entry for key 'a' and the
entry ('b', 2) holding value 2 together with their mirrored inverse
entries, leaving exactly {'a': 2} of length 1. -/
theorem C4_overwrite_displaces_two :
    update (⟨[(PyVal.str "a", PyVal.int 1), (PyVal.str "b", PyVal.int 2)],
        [(PyVal.int 1, PyVal.str "a"), (PyVal.int 2, PyVal.str "b")]⟩ : BState PyVal)
        Pol.overwrite Pol.overwrite [(PyVal.str "a", PyVal.int 2)] =
      (⟨[(PyVal.str "a", PyVal.int 2)], [(PyVal.int 2, PyVal.str "a")]⟩, none) ∧
    ((update (⟨[(PyVal.str "a", PyVal.int 1), (PyVal.str "b", PyVal.int 2)],
        [(PyVal.int 1, PyVal.str "a"), (PyVal.int 2, PyVal.str "b")]⟩ : BState PyVal)
        Pol.overwrite Pol.overwrite [(PyVal.str "a", PyVal.int 2)]).1).fwd.length = 1 := by
  decide

/-- C5: constructing from [('x',1), ('x',2)] with key policy OVERWRITE
yields exactly {'x': 2} (the later pair wins); with key policy RAISE the
construction raises KeyNotUnique('x'). -/
theorem C5_intra_batch_key_dup :
    bidictInit Pol.overwrite Pol.raiseIt
        (some (.pairsArg [(PyVal.str "x", PyVal.int 1), (PyVal.str "x", PyVal.int 2)])) [] =
      (⟨[(PyVal.str "x", PyVal.int 2)], [(PyVal.int 2, PyVal.str "x")]⟩, none) ∧
    bidictInit Pol.raiseIt Pol.raiseIt
        (some (.pairsArg [(PyVal.str "x", PyVal.int 1), (PyVal.str "x", PyVal.int 2)])) [] =
      (⟨[], []⟩, some (BErr.keyNotUnique (PyVal.str "x"))) := by
  decide

/-- C6: the code evaluated at the claim's inputs.  Two keyword pairs sharing
value 1 sail through construction with on_dup_val = RAISE (no exception,
later pair wins) and with on_dup_val = IGNORE (later pair wins, not the
earlier), because `_dedup_in` stores `kwinv[k] = v` while probing
`kwinv.get(v)`; the same two pairs passed positionally raise
ValueNotUnique(1) as documented. -/
theorem C6_kw_value_dup_undetected :
    bidictInit Pol.overwrite Pol.raiseIt none
        [(PyVal.str "a", PyVal.int 1), (PyVal.str "b", PyVal.int 1)] =
      (⟨[(PyVal.str "b", PyVal.int 1)], [(PyVal.int 1, PyVal.str "b")]⟩, none) ∧
    bidictInit Pol.overwrite Pol.ignore none
        [(PyVal.str "a", PyVal.int 1), (PyVal.str "b", PyVal.int 1)] =
      (⟨[(PyVal.str "b", PyVal.int 1)], [(PyVal.int 1, PyVal.str "b")]⟩, none) ∧
    bidictInit Pol.overwrite Pol.raiseIt
        (some (.pairsArg [(PyVal.str "a", PyVal.int 1), (PyVal.str "b", PyVal.int 1)])) [] =
      (⟨[], []⟩, some (BErr.valueNotUnique (PyVal.int 1))) := by
  decide

/-- C7: an exact pair already present is a no-op under every policy
combination — also when it occurs twice in one batch — and the intra-batch
resolver collapses an exact duplicate pair to a single occurrence
regardless of policy. -/
theorem C7_exact_pair_idempotent (m : BState α) (k v : α) (onK onV : Pol)
    (hk : dget m.fwd k = some v) (hinv : dget m.inv v = some k) :
    update m onK onV [(k, v)] = (m, none) ∧
    update m onK onV [(k, v), (k, v)] = (m, none) ∧
    _dedup_in onK onV (some (.pairsArg [(k, v), (k, v)])) [] = .ok [(k, v)] := by
  have hfne : m.fwd ≠ [] := dget_nonempty hk
  have hsingle : _dedup m.fwd m.inv onK onV [(k, v)] = .ok [] := by
    rw [_dedup_drop_exact m k v onK onV hk hinv]
    rfl
  have hdouble : _dedup m.fwd m.inv onK onV [(k, v), (k, v)] = .ok [] := by
    rw [_dedup_drop_exact m k v onK onV hk hinv,
      _dedup_drop_exact m k v onK onV hk hinv]
    rfl
  have hdin : _dedup_in onK onV (some (.pairsArg [(k, v), (k, v)])) [] = .ok [(k, v)] := by
    simp [_dedup_in, dedupInArg, dedupInPairs, dedupInKey, dedupInVal, dedupInKw,
      dget, dset]
  refine ⟨?_, ?_, hdin⟩
  · rw [update_def, resolve_single_pair onK onV m k v hfne, hsingle]
    rfl
  · rw [update_def]
    have hres : resolve onK onV m (some (.pairsArg [(k, v), (k, v)])) [] = .ok [] := by
      by_cases hskip : onK = Pol.overwrite ∧ onV = Pol.overwrite
      · obtain ⟨hko, hvo⟩ := hskip
        subst hko
        subst hvo
        simpa [resolve, inpPairs, hfne] using hdouble
      · simp only [resolve]
        rw [if_neg hfne, if_neg (by simp [hskip, inpLen, inpPairs, isBimap]), hdin]
        exact hsingle
    rw [hres]
    rfl

/-- Witness for C7: on {'a': 1}, re-adding the exact pair ('a', 1) under
RAISE for both policies raises nothing and leaves the mapping unchanged. -/
theorem C7_exact_pair_idempotent_witness :
    update (⟨[(PyVal.str "a", PyVal.int 1)], [(PyVal.int 1, PyVal.str "a")]⟩ : BState PyVal)
        Pol.raiseIt Pol.raiseIt [(PyVal.str "a", PyVal.int 1)] =
      (⟨[(PyVal.str "a", PyVal.int 1)], [(PyVal.int 1, PyVal.str "a")]⟩, none) :=
  (C7_exact_pair_idempotent
    (⟨[(PyVal.str "a", PyVal.int 1)], [(PyVal.int 1, PyVal.str "a")]⟩ : BState PyVal)
    (PyVal.str "a") (PyVal.int 1) Pol.raiseIt Pol.raiseIt (by decide) (by decide)).1

/-- C8: the inverse view is the same shared storage with roles exchanged —
taking the inverse view twice returns the original identity, the view's
forward store is the partner's inverse store (and vice versa), the same
holds for the state left by any mutation performed through either
instance, and `copy()` establishes the same linkage on fresh stores. -/
theorem C8_inverse_view_shared (p : BPair α) (h : Bool) :
    invHandle (invHandle h) = h ∧
    fwdStore p (invHandle h) = invStore p h ∧
    invStore p (invHandle h) = fwdStore p h ∧
    (∀ onK onV l,
      fwdStore (updateVia p h onK onV l).1 (invHandle h) =
        invStore (updateVia p h onK onV l).1 h ∧
      invStore (updateVia p h onK onV l).1 (invHandle h) =
        fwdStore (updateVia p h onK onV l).1 h) ∧
    fwdStore (copyPair p h).1 (copyPair p h).2 = fwdStore p h ∧
    fwdStore (copyPair p h).1 (invHandle (copyPair p h).2) = invStore p h := by
  cases h <;>
    simp [invHandle, fwdStore, invStore, copyPair, updateVia, writeStores, viewState]

/-- C9: two frozen unordered mappings whose forward stores are equal as
mappings (the variant's equality) hash equal, whatever the iteration or
insertion order of their items. -/
theorem C9_frozen_hash_eq (cls : String) (m1 m2 : BState PyVal)
    (h1 : NodupKeys m1.fwd) (h2 : NodupKeys m2.fwd)
    (heq : ∀ k, dget m1.fwd k = dget m2.fwd k) :
    frozenHash cls m1 = frozenHash cls m2 := by
  unfold frozenHash _compute_hash frozensetHash
  simp only [List.toFinset_cons]
  rw [toFinset_eq_of_dget_eq h1 h2 heq]

/-- Witness for C9, the spec's instance: constructing from {'a':1, 'b':2}
and from {'b':2, 'a':1} (same items, different iteration order) yields
equal hashes. -/
theorem C9_frozen_hash_eq_witness :
    frozenHash "frozenbidict"
        (bidictInit Pol.overwrite Pol.raiseIt
          (some (.mapArg [(PyVal.str "a", PyVal.int 1), (PyVal.str "b", PyVal.int 2)])) []).1 =
      frozenHash "frozenbidict"
        (bidictInit Pol.overwrite Pol.raiseIt
          (some (.mapArg [(PyVal.str "b", PyVal.int 2), (PyVal.str "a", PyVal.int 1)])) []).1 :=
  C9_frozen_hash_eq "frozenbidict" _ _ (by decide) (by decide)
    (by
      intro k
      show dget [(PyVal.str "a", PyVal.int 1), (PyVal.str "b", PyVal.int 2)] k =
        dget [(PyVal.str "b", PyVal.int 2), (PyVal.str "a", PyVal.int 1)] k
      by_cases ha : PyVal.str "a" = k
      · subst ha
        decide
      · by_cases hb : PyVal.str "b" = k
        · subst hb
          decide
        · simp [dget, ha, hb])

/-- C10: construction from any initial batch never raises KeyExists or
ValueExists: the mapping is empty while the batch resolves, so the
against-existing pass is skipped entirely and any uniqueness error is an
intra-batch KeyNotUnique or ValueNotUnique carrying only the offending
key or value. -/
theorem C10_init_errors_not_exists (onK onV : Pol) (arg? : Option (Inp α))
    (kw : List (α × α)) (e : BErr α)
    (h : (bidictInit onK onV arg? kw).2 = some e) :
    (∃ k, e = BErr.keyNotUnique k) ∨ (∃ v, e = BErr.valueNotUnique v) := by
  unfold bidictInit _update at h
  by_cases hc : arg? = none ∧ kw = []
  · rw [if_pos hc] at h
    simp at h
  · rw [if_neg hc] at h
    cases hres : resolve onK onV ⟨[], []⟩ arg? kw with
    | ok l =>
      rw [hres] at h
      simp at h
    | error e' =>
      rw [hres] at h
      simp only at h
      injection h with h
      subst h
      have hnu : IsNotUnique e' := by
        simp only [resolve] at hres
        split_ifs at hres
        any_goals exact dedupIn_error hres
      cases e' with
      | keyNotUnique k => exact Or.inl ⟨k, rfl⟩
      | valueNotUnique v => exact Or.inr ⟨v, rfl⟩
      | keyExists a b => exact hnu.elim
      | valueExists a b => exact hnu.elim

/-- Witness for C10: constructing from [('a',1), ('b',1)] with on_dup_val =
RAISE raises ValueNotUnique(1), an intra-batch error kind. -/
theorem C10_init_errors_not_exists_witness :
    (∃ k, BErr.valueNotUnique (PyVal.int 1) = BErr.keyNotUnique k) ∨
    (∃ v, BErr.valueNotUnique (PyVal.int 1) = BErr.valueNotUnique v) :=
  C10_init_errors_not_exists Pol.overwrite Pol.raiseIt
    (some (.pairsArg [(PyVal.str "a", PyVal.int 1), (PyVal.str "b", PyVal.int 1)])) []
    (BErr.valueNotUnique (PyVal.int 1)) (by decide)

end Bidict
